import Mathlib

set_option maxHeartbeats 1000000

/-!
Shallow embedding of the Eina free-queue subsystem (EINA-EFL data type
library).  The repository ships the public header (src/unnamed/part_000,
i.e. eina_freeq.h) but not the implementation file, so the queue-core
behaviour is modelled from the design specification, with the header as
the authority for every signature and documented contract it declares.

Machine integers: C `int` is embedded as `Int`, C `size_t` as `Nat`
(values below 2 ^ 64; the conversion of a negative C `int` argument to
`size_t` is made explicit by `toSizeT`).  Pointers are addresses
(`Nat`, with 0 playing NULL).  Memory is a byte map `Nat → Nat`, and a
free function is identified by an opaque tag (`Option Nat`, `none`
standing for libc `free`).
-/

/-- Byte-addressed process memory: the byte value stored at each address. -/
def Mem : Type := Nat → Nat

/-- Overwrite `size` bytes starting at `ptr` with the byte value `pat`
(models `memset(ptr, pat, size)`). -/
def poison (mem : Mem) (ptr size pat : Nat) : Mem :=
  fun a => if ptr ≤ a ∧ a < ptr + size then pat else mem a

/-- The two queue flavors, from the header enum `_Eina_FreeQ_Type`. -/
inductive Eina_FreeQ_Type where
  | EINA_FREEQ_DEFAULT
  | EINA_FREEQ_POSTPONED
deriving DecidableEq

/-- One pending release: the pointer, the free function tag (`none` =
libc `free`, per the header doc of `eina_freeq_ptr_add`), and the
declared size (0 = opaque, untracked, unpoisoned). -/
structure Item where
  ptr : Nat
  free_func : Option Nat
  size : Nat
deriving DecidableEq

/-- A record of one invocation of a release capability: the pointer and
free function that were invoked, the item's declared size, and a
snapshot of process memory at the moment of the call (that is, after
the pre-release poison stamp, if any). -/
structure ReleaseEvent where
  ptr : Nat
  free_func : Option Nat
  size : Nat
  memAtCall : Mem

/-- Modelled from the spec: one free-queue instance (`struct _Eina_FreeQ`
is opaque in the header).  `items` is the pending sequence, head =
oldest (insertion order = eviction order); `countMax` is the count
ceiling (-1 = unbounded, the header's "-1 for infinity"); `memMax` is
the memory ceiling in bytes (`none` = never set / unbounded; a `size_t`
per the header); `memTotal` is the running sum of tracked sizes; and
`bypassDisabled` is the per-queue latch that, once true, permanently
disables bypass (header note on EINA_FREEQ_BYPASS). -/
structure Eina_FreeQ where
  qtype : Eina_FreeQ_Type
  items : List Item
  countMax : Int
  memMax : Option Nat
  memTotal : Nat
  bypassDisabled : Bool

/-- Process-wide tuning configuration, read-only after first use:
the EINA_FREEQ_BYPASS flag, the EINA_FREEQ_FILL_MAX poison-size
threshold (exclusive upper bound, per the header note), and the two
poison byte patterns EINA_FREEQ_FILL (default 0x55) and
EINA_FREEQ_FILL_FREED (default 0x77). -/
structure Config where
  bypass : Bool
  fillMax : Nat
  fill : Nat
  fillFreed : Nat

/-- A queue together with the ambient observables: process memory and
the trace of release-capability invocations so far. -/
structure World where
  fq : Eina_FreeQ
  mem : Mem
  released : List ReleaseEvent

/-- Intermediate state threaded through the eviction / drain loops. -/
structure QCore where
  items : List Item
  memTotal : Nat
  mem : Mem
  evs : List ReleaseEvent

/-- Sum of the declared sizes of a list of items. -/
def sumSizes : List Item → Nat
  | [] => 0
  | it :: rest => it.size + sumSizes rest

/-- Modelled from the spec (§4.3): the pending-poison stamp applied on
enqueue, only when 0 < size and size is strictly below the configured
threshold (the header: a blob of 99 bytes is filled when the max is 100). -/
def poisonFill (cfg : Config) (ptr size : Nat) (mem : Mem) : Mem :=
  if 0 < size ∧ size < cfg.fillMax then poison mem ptr size cfg.fill else mem

/-- Modelled from the spec (§4.3): the pre-release poison stamp, same
size condition, pattern EINA_FREEQ_FILL_FREED. -/
def poisonFreed (cfg : Config) (it : Item) (mem : Mem) : Mem :=
  if 0 < it.size ∧ it.size < cfg.fillMax then poison mem it.ptr it.size cfg.fillFreed else mem

/-- Modelled from the spec (§4.2 enforcement step): release one item —
stamp it with the pre-release pattern when tracked, then invoke its
release capability (recorded as a `ReleaseEvent` carrying the memory
contents at the moment of the call). -/
def releaseItem (cfg : Config) (it : Item) (mem : Mem) (evs : List ReleaseEvent) :
    Mem × List ReleaseEvent :=
  (poisonFreed cfg it mem,
    evs ++ [⟨it.ptr, it.free_func, it.size, poisonFreed cfg it mem⟩])

/-- The memory half of the over-ceiling test: true when a memory ceiling
is set and the tracked total exceeds it. -/
def memOver (mM : Option Nat) (mt : Nat) : Prop :=
  match mM with
  | some m => m < mt
  | none => False

instance (mM : Option Nat) (mt : Nat) : Decidable (memOver mM mt) :=
  match mM with
  | some m => inferInstanceAs (Decidable (m < mt))
  | none => inferInstanceAs (Decidable False)

/-- Modelled from the spec (§4.2): the enforcement-loop guard — a ceiling
is set and exceeded (count above the count ceiling, or tracked memory
above the memory ceiling). -/
def overQ (cM : Int) (mM : Option Nat) (count mt : Nat) : Prop :=
  (0 ≤ cM ∧ cM < (count : Int)) ∨ memOver mM mt

instance (cM : Int) (mM : Option Nat) (count mt : Nat) : Decidable (overQ cM mM count mt) := by
  unfold overQ
  infer_instance

/-- Modelled from the spec (§4.2): the synchronous enforcement loop —
while some set ceiling is exceeded, pop the head (oldest) item, poison
and release it, subtract its size, and continue. -/
def enforceAux (cfg : Config) (cM : Int) (mM : Option Nat) :
    List Item → Nat → Mem → List ReleaseEvent → QCore
  | [], mt, mem, evs => ⟨[], mt, mem, evs⟩
  | it :: rest, mt, mem, evs =>
    if overQ cM mM (it :: rest).length mt then
      enforceAux cfg cM mM rest (mt - it.size)
        (releaseItem cfg it mem evs).1 (releaseItem cfg it mem evs).2
    else ⟨it :: rest, mt, mem, evs⟩

/-- Modelled from the spec (§4.6 drain_all): release every pending item,
oldest first, unconditionally. -/
def drainAll (cfg : Config) : List Item → Nat → Mem → List ReleaseEvent → QCore
  | [], mt, mem, evs => ⟨[], mt, mem, evs⟩
  | it :: rest, mt, mem, evs =>
    drainAll cfg rest (mt - it.size)
      (releaseItem cfg it mem evs).1 (releaseItem cfg it mem evs).2

/-- Modelled from the spec (§4.6 drain_up_to): release up to `n` oldest
items, stopping early when the queue empties. -/
def reduceAux (cfg : Config) : Nat → List Item → Nat → Mem → List ReleaseEvent → QCore
  | 0, items, mt, mem, evs => ⟨items, mt, mem, evs⟩
  | _ + 1, [], mt, mem, evs => ⟨[], mt, mem, evs⟩
  | n + 1, it :: rest, mt, mem, evs =>
    reduceAux cfg n rest (mt - it.size)
      (releaseItem cfg it mem evs).1 (releaseItem cfg it mem evs).2

/-- Modelled from the spec: bypass is active on a queue exactly when its
bypass-disabled latch is false and the global bypass flag is true. -/
def bypassActive (cfg : Config) (fq : Eina_FreeQ) : Bool :=
  !fq.bypassDisabled && cfg.bypass

/-- Modelled from the spec (§4.1 create): a new empty queue of the given
flavor; ceilings unset; the latch is false for the shared (DEFAULT)
flavor — bypass follows the global flag — and true for the ephemeral
(POSTPONED) flavor, which never honors bypass. -/
def eina_freeq_new (type : Eina_FreeQ_Type) : Eina_FreeQ :=
  ⟨type, [], -1, none, 0,
    match type with
    | .EINA_FREEQ_DEFAULT => false
    | .EINA_FREEQ_POSTPONED => true⟩

/-- A fresh queue in a world with zeroed memory and an empty release trace. -/
def worldNew (type : Eina_FreeQ_Type) : World :=
  ⟨eina_freeq_new type, fun _ => 0, []⟩

/-- Pure accessor for the flavor (header: eina_freeq_type_get). -/
def eina_freeq_type_get (fq : Eina_FreeQ) : Eina_FreeQ_Type :=
  fq.qtype

/-- Modelled from the spec (§4.2 enqueue; header doc of
eina_freeq_ptr_add, src/unnamed/part_000 lines 272-319): a NULL pointer
is a no-op; with bypass active the item is poisoned per the pre-release
step and released immediately, never becoming pending; otherwise the
item is appended at the tail, stamped with the pending pattern when
tracked, accounted in `memTotal`, and the enforcement loop runs
synchronously. -/
def eina_freeq_ptr_add (cfg : Config) (w : World) (ptr : Nat) (free_func : Option Nat)
    (size : Nat) : World :=
  if ptr = 0 then w
  else if bypassActive cfg w.fq then
    ⟨w.fq, (releaseItem cfg ⟨ptr, free_func, size⟩ w.mem w.released).1,
      (releaseItem cfg ⟨ptr, free_func, size⟩ w.mem w.released).2⟩
  else
    let r := enforceAux cfg w.fq.countMax w.fq.memMax
      (w.fq.items ++ [⟨ptr, free_func, size⟩]) (w.fq.memTotal + size)
      (poisonFill cfg ptr size w.mem) w.released
    ⟨{ w.fq with items := r.items, memTotal := r.memTotal }, r.mem, r.evs⟩

/-- Modelled from the spec (§4.4; header doc of eina_freeq_count_max_set,
src/unnamed/part_000 lines 176-193): a negative count means unbounded
(stored as the -1 sentinel); the call permanently sets the
bypass-disabled latch and runs enforcement immediately, so excess items
are cleaned out at the time this API is called. -/
def eina_freeq_count_max_set (cfg : Config) (w : World) (count : Int) : World :=
  let cM : Int := if count < 0 then -1 else count
  let r := enforceAux cfg cM w.fq.memMax w.fq.items w.fq.memTotal w.mem w.released
  ⟨⟨w.fq.qtype, r.items, cM, w.fq.memMax, r.memTotal, true⟩, r.mem, r.evs⟩

/-- Pure accessor (header: eina_freeq_count_max_get returns the maximum
number of items allowed, or -1 for infinity). -/
def eina_freeq_count_max_get (fq : Eina_FreeQ) : Int :=
  fq.countMax

/-- Modelled from the spec (§4.4; header doc of eina_freeq_mem_max_set,
src/unnamed/part_000 lines 204-223): the parameter is a `size_t` byte
count, so every call installs the given value as a set ceiling; the
call permanently sets the bypass-disabled latch and runs enforcement
immediately. -/
def eina_freeq_mem_max_set (cfg : Config) (w : World) (mem : Nat) : World :=
  let r := enforceAux cfg w.fq.countMax (some mem) w.fq.items w.fq.memTotal w.mem w.released
  ⟨⟨w.fq.qtype, r.items, w.fq.countMax, some mem, r.memTotal, true⟩, r.mem, r.evs⟩

/-- Pure accessor (header: eina_freeq_mem_max_get returns a `size_t`;
in the model the never-set state is exposed as `none`). -/
def eina_freeq_mem_max_get (fq : Eina_FreeQ) : Option Nat :=
  fq.memMax

/-- The conversion a C call site performs when handing an `int` argument
to the `size_t` parameter of eina_freeq_mem_max_set: reduction modulo
2 ^ 64, so -1 arrives as 2 ^ 64 - 1 (SIZE_MAX). -/
def toSizeT (n : Int) : Nat :=
  (n % (2 : Int) ^ 64).toNat

/-- Modelled from the spec (§4.6 drain_all; header doc of
eina_freeq_clear, src/unnamed/part_000 lines 235-245): release every
queued item; when it returns the free queue is empty. -/
def eina_freeq_clear (cfg : Config) (w : World) : World :=
  let r := drainAll cfg w.fq.items w.fq.memTotal w.mem w.released
  ⟨{ w.fq with items := r.items, memTotal := r.memTotal }, r.mem, r.evs⟩

/-- Modelled from the spec (§4.6 drain_up_to; header doc of
eina_freeq_reduce, src/unnamed/part_000 lines 247-260): free up to
`count` items, oldest first, returning once `count` items are removed
or the queue is empty.  The C parameter is an `int`; a non-positive
count removes nothing. -/
def eina_freeq_reduce (cfg : Config) (w : World) (count : Int) : World :=
  let r := reduceAux cfg count.toNat w.fq.items w.fq.memTotal w.mem w.released
  ⟨{ w.fq with items := r.items, memTotal := r.memTotal }, r.mem, r.evs⟩

/-- Header: eina_freeq_ptr_pending — true iff there are items to free. -/
def eina_freeq_ptr_pending (w : World) : Bool :=
  !w.fq.items.isEmpty

/-- Modelled from the spec (§4.7): the process-wide main queue, a
shared-flavor queue created on first access.  The process state is
`Option World` (`none` = not yet created); the accessor yields the
queue, creating it if needed. -/
def eina_freeq_main_get : Option World → World
  | some w => w
  | none => worldNew .EINA_FREEQ_DEFAULT

/-- From src (static inline eina_freeq_ptr_main_add, src/unnamed/part_000
lines 332-336): calls eina_freeq_ptr_add on the queue returned by
eina_freeq_main_get. -/
def eina_freeq_ptr_main_add (cfg : Config) (p : Option World) (ptr : Nat)
    (free_func : Option Nat) (size : Nat) : Option World :=
  some (eina_freeq_ptr_add cfg (eina_freeq_main_get p) ptr free_func size)

/-- The operations a client can perform on one queue, for stating
whole-lifetime (temporal) properties. -/
inductive FreeQOp where
  | add (ptr : Nat) (free_func : Option Nat) (size : Nat)
  | countMaxSet (n : Int)
  | memMaxSet (n : Nat)
  | clear
  | reduce (n : Int)

/-- Apply one operation to a world. -/
def applyOp (cfg : Config) (w : World) : FreeQOp → World
  | .add p f s => eina_freeq_ptr_add cfg w p f s
  | .countMaxSet n => eina_freeq_count_max_set cfg w n
  | .memMaxSet n => eina_freeq_mem_max_set cfg w n
  | .clear => eina_freeq_clear cfg w
  | .reduce n => eina_freeq_reduce cfg w n

/-- Run a sequence of operations from a starting world. -/
def runOps (cfg : Config) (w : World) (ops : List FreeQOp) : World :=
  List.foldl (applyOp cfg) w ops

/-- The count-ceiling invariant: when the ceiling is set (non-negative),
the pending count does not exceed it. -/
def countInv (cM : Int) (c : Nat) : Prop :=
  if 0 ≤ cM then ((c : Int) ≤ cM) else True

/-- The memory-ceiling invariant: when a memory ceiling is set, the
tracked total does not exceed it. -/
def memInv (mM : Option Nat) (mt : Nat) : Prop :=
  match mM with
  | some m => mt ≤ m
  | none => True

/-- Both ceiling invariants of one queue. -/
def QueueInv (fq : Eina_FreeQ) : Prop :=
  countInv fq.countMax fq.items.length ∧ memInv fq.memMax fq.memTotal

/-- Accounting well-formedness: `memTotal` equals the sum of the pending
items' declared sizes. -/
def MemWF (fq : Eina_FreeQ) : Prop :=
  fq.memTotal = sumSizes fq.items

instance (fq : Eina_FreeQ) : Decidable (MemWF fq) :=
  inferInstanceAs (Decidable (_ = _))

instance (cM : Int) (c : Nat) : Decidable (countInv cM c) := by
  unfold countInv
  infer_instance

instance (mM : Option Nat) (mt : Nat) : Decidable (memInv mM mt) :=
  match mM with
  | some m => inferInstanceAs (Decidable (mt ≤ m))
  | none => inferInstanceAs (Decidable True)

instance (fq : Eina_FreeQ) : Decidable (QueueInv fq) :=
  inferInstanceAs (Decidable (_ ∧ _))

/-- Projection of a release trace to the data a release capability is
invoked with: pointer, free function and declared size. -/
def evCalls (evs : List ReleaseEvent) : List (Nat × Option Nat × Nat) :=
  evs.map (fun e => (e.ptr, e.free_func, e.size))

/-- A concrete tuning configuration with the global bypass flag on and
poisoning off (fill threshold 0), used by the ceiling scenarios. -/
def cfgByp : Config := ⟨true, 0, 85, 119⟩

/-- A concrete tuning configuration with the global bypass flag off and
poison threshold 16, default patterns 0x55 / 0x77, used by the
poisoning witnesses. -/
def cfgDbg : Config := ⟨false, 16, 85, 119⟩

/-- A freshly created shared-flavor queue in a zeroed world. -/
def wFresh : World := worldNew .EINA_FREEQ_DEFAULT

/-- The spec §8 scenario: on a fresh shared-flavor queue set
count ceiling 2, then enqueue A = 1000, B = 2000, C = 3000, each of
size 8 with no release capability supplied. -/
def wScenario : World :=
  eina_freeq_ptr_add cfgByp
    (eina_freeq_ptr_add cfgByp
      (eina_freeq_ptr_add cfgByp
        (eina_freeq_count_max_set cfgByp (worldNew .EINA_FREEQ_DEFAULT) 2)
        1000 none 8)
      2000 none 8)
    3000 none 8

theorem sumSizes_nil : sumSizes [] = 0 := rfl

theorem sumSizes_cons (it : Item) (rest : List Item) :
    sumSizes (it :: rest) = it.size + sumSizes rest := rfl

theorem sumSizes_append (xs ys : List Item) :
    sumSizes (xs ++ ys) = sumSizes xs + sumSizes ys := by
  induction xs with
  | nil => simp [sumSizes]
  | cons it rest ih => simp only [List.cons_append, sumSizes_cons, ih]; omega

theorem releaseItem_snd (cfg : Config) (it : Item) (mem : Mem) (evs : List ReleaseEvent) :
    (releaseItem cfg it mem evs).2
      = evs ++ [⟨it.ptr, it.free_func, it.size, poisonFreed cfg it mem⟩] := rfl

theorem enforceAux_nil (cfg : Config) (cM : Int) (mM : Option Nat) (mt : Nat) (mem : Mem)
    (evs : List ReleaseEvent) :
    enforceAux cfg cM mM [] mt mem evs = ⟨[], mt, mem, evs⟩ := rfl

theorem enforceAux_cons_over (cfg : Config) (cM : Int) (mM : Option Nat) (it : Item)
    (rest : List Item) (mt : Nat) (mem : Mem) (evs : List ReleaseEvent)
    (h : overQ cM mM (it :: rest).length mt) :
    enforceAux cfg cM mM (it :: rest) mt mem evs
      = enforceAux cfg cM mM rest (mt - it.size)
          (releaseItem cfg it mem evs).1 (releaseItem cfg it mem evs).2 := by
  rw [enforceAux, if_pos h]

theorem enforceAux_cons_not_over (cfg : Config) (cM : Int) (mM : Option Nat) (it : Item)
    (rest : List Item) (mt : Nat) (mem : Mem) (evs : List ReleaseEvent)
    (h : ¬ overQ cM mM (it :: rest).length mt) :
    enforceAux cfg cM mM (it :: rest) mt mem evs = ⟨it :: rest, mt, mem, evs⟩ := by
  rw [enforceAux, if_neg h]

theorem enforceAux_fifo (cfg : Config) (cM : Int) (mM : Option Nat) :
    ∀ (items : List Item) (mt : Nat) (mem : Mem) (evs : List ReleaseEvent),
      ∃ k, k ≤ items.length ∧
        (enforceAux cfg cM mM items mt mem evs).items = List.drop k items ∧
        List.map ReleaseEvent.ptr (enforceAux cfg cM mM items mt mem evs).evs
          = List.map ReleaseEvent.ptr evs ++ List.take k (List.map Item.ptr items) := by
  intro items
  induction items with
  | nil =>
    intro mt mem evs
    exact ⟨0, by simp [enforceAux_nil]⟩
  | cons it rest ih =>
    intro mt mem evs
    by_cases h : overQ cM mM (it :: rest).length mt
    · obtain ⟨k, hk, h1, h2⟩ := ih (mt - it.size)
        (releaseItem cfg it mem evs).1 (releaseItem cfg it mem evs).2
      have e := enforceAux_cons_over cfg cM mM it rest mt mem evs h
      refine ⟨k + 1, by simpa using Nat.succ_le_succ hk, ?_, ?_⟩
      · rw [e, h1]; rfl
      · rw [e, h2, releaseItem_snd]; simp
    · have e := enforceAux_cons_not_over cfg cM mM it rest mt mem evs h
      exact ⟨0, by simp, by rw [e]; simp, by rw [e]; simp⟩

theorem enforceAux_restores (cfg : Config) (cM : Int) (mM : Option Nat) :
    ∀ (items : List Item) (mt : Nat) (mem : Mem) (evs : List ReleaseEvent),
      mt = sumSizes items →
      (enforceAux cfg cM mM items mt mem evs).memTotal
          = sumSizes (enforceAux cfg cM mM items mt mem evs).items ∧
      ¬ overQ cM mM (enforceAux cfg cM mM items mt mem evs).items.length
          (enforceAux cfg cM mM items mt mem evs).memTotal := by
  intro items
  induction items with
  | nil =>
    intro mt mem evs hmt
    rw [enforceAux_nil]
    rw [sumSizes_nil] at hmt
    refine ⟨by simpa [sumSizes_nil] using hmt, ?_⟩
    intro hov
    simp only [overQ] at hov
    rcases hov with ⟨h0, hlt⟩ | hm
    · simp at hlt
      omega
    · cases mM with
      | some m => simp only [memOver] at hm; omega
      | none => exact hm
  | cons it rest ih =>
    intro mt mem evs hmt
    rw [sumSizes_cons] at hmt
    by_cases h : overQ cM mM (it :: rest).length mt
    · have e := enforceAux_cons_over cfg cM mM it rest mt mem evs h
      rw [e]
      exact ih (mt - it.size) _ _ (by omega)
    · have e := enforceAux_cons_not_over cfg cM mM it rest mt mem evs h
      rw [e]
      refine ⟨?_, h⟩
      show mt = sumSizes (it :: rest)
      rw [sumSizes_cons]
      omega

theorem enforceAux_unbounded (cfg : Config) (items : List Item) (mt : Nat) (mem : Mem)
    (evs : List ReleaseEvent) :
    enforceAux cfg (-1) none items mt mem evs = ⟨items, mt, mem, evs⟩ := by
  cases items with
  | nil => rfl
  | cons it rest =>
    apply enforceAux_cons_not_over
    intro hov
    simp only [overQ] at hov
    rcases hov with ⟨h0, _⟩ | hm
    · omega
    · simp only [memOver] at hm

theorem not_over_inv (cM : Int) (mM : Option Nat) (c mt : Nat)
    (h : ¬ overQ cM mM c mt) : countInv cM c ∧ memInv mM mt := by
  simp only [overQ] at h
  push_neg at h
  obtain ⟨h1, h2⟩ := h
  constructor
  · simp only [countInv]
    split
    · rename_i h0
      exact h1 h0
    · trivial
  · cases mM with
    | some m => simp only [memInv]; simp only [memOver] at h2; omega
    | none => simp only [memInv]

theorem drainAll_spec (cfg : Config) :
    ∀ (items : List Item) (mt : Nat) (mem : Mem) (evs : List ReleaseEvent),
      (drainAll cfg items mt mem evs).items = [] ∧
      (drainAll cfg items mt mem evs).memTotal = mt - sumSizes items ∧
      List.map ReleaseEvent.ptr (drainAll cfg items mt mem evs).evs
        = List.map ReleaseEvent.ptr evs ++ List.map Item.ptr items := by
  intro items
  induction items with
  | nil =>
    intro mt mem evs
    exact ⟨rfl, by simp [drainAll, sumSizes_nil], by simp [drainAll]⟩
  | cons it rest ih =>
    intro mt mem evs
    obtain ⟨h1, h2, h3⟩ := ih (mt - it.size)
      (releaseItem cfg it mem evs).1 (releaseItem cfg it mem evs).2
    have e : drainAll cfg (it :: rest) mt mem evs
        = drainAll cfg rest (mt - it.size)
            (releaseItem cfg it mem evs).1 (releaseItem cfg it mem evs).2 := rfl
    refine ⟨by rw [e, h1], ?_, ?_⟩
    · rw [e, h2, sumSizes_cons]
      omega
    · rw [e, h3, releaseItem_snd]
      simp

theorem reduceAux_spec (cfg : Config) :
    ∀ (items : List Item) (n : Nat) (mt : Nat) (mem : Mem) (evs : List ReleaseEvent),
      (reduceAux cfg n items mt mem evs).items = List.drop n items ∧
      (reduceAux cfg n items mt mem evs).memTotal = mt - sumSizes (List.take n items) ∧
      List.map ReleaseEvent.ptr (reduceAux cfg n items mt mem evs).evs
        = List.map ReleaseEvent.ptr evs ++ List.take n (List.map Item.ptr items) := by
  intro items
  induction items with
  | nil =>
    intro n mt mem evs
    cases n <;> simp [reduceAux, sumSizes_nil]
  | cons it rest ih =>
    intro n mt mem evs
    cases n with
    | zero => simp [reduceAux, sumSizes_nil]
    | succ n =>
      obtain ⟨h1, h2, h3⟩ := ih n (mt - it.size)
        (releaseItem cfg it mem evs).1 (releaseItem cfg it mem evs).2
      have e : reduceAux cfg (n + 1) (it :: rest) mt mem evs
          = reduceAux cfg n rest (mt - it.size)
              (releaseItem cfg it mem evs).1 (releaseItem cfg it mem evs).2 := rfl
      refine ⟨by rw [e, h1]; rfl, ?_, ?_⟩
      · rw [e, h2, List.take_succ_cons, sumSizes_cons]
        omega
      · rw [e, h3, releaseItem_snd]
        simp

theorem ptr_add_null (cfg : Config) (w : World) (f : Option Nat) (s : Nat) :
    eina_freeq_ptr_add cfg w 0 f s = w := by
  simp [eina_freeq_ptr_add]

theorem ptr_add_bypassed (cfg : Config) (w : World) (p : Nat) (f : Option Nat) (s : Nat)
    (h1 : p ≠ 0) (h2 : bypassActive cfg w.fq = true) :
    eina_freeq_ptr_add cfg w p f s
      = ⟨w.fq, (releaseItem cfg ⟨p, f, s⟩ w.mem w.released).1,
          (releaseItem cfg ⟨p, f, s⟩ w.mem w.released).2⟩ := by
  simp [eina_freeq_ptr_add, h1, h2]

theorem ptr_add_queued (cfg : Config) (w : World) (p : Nat) (f : Option Nat) (s : Nat)
    (h1 : p ≠ 0) (h2 : bypassActive cfg w.fq = false) :
    eina_freeq_ptr_add cfg w p f s
      = ⟨⟨w.fq.qtype,
          (enforceAux cfg w.fq.countMax w.fq.memMax (w.fq.items ++ [⟨p, f, s⟩])
            (w.fq.memTotal + s) (poisonFill cfg p s w.mem) w.released).items,
          w.fq.countMax, w.fq.memMax,
          (enforceAux cfg w.fq.countMax w.fq.memMax (w.fq.items ++ [⟨p, f, s⟩])
            (w.fq.memTotal + s) (poisonFill cfg p s w.mem) w.released).memTotal,
          w.fq.bypassDisabled⟩,
        (enforceAux cfg w.fq.countMax w.fq.memMax (w.fq.items ++ [⟨p, f, s⟩])
          (w.fq.memTotal + s) (poisonFill cfg p s w.mem) w.released).mem,
        (enforceAux cfg w.fq.countMax w.fq.memMax (w.fq.items ++ [⟨p, f, s⟩])
          (w.fq.memTotal + s) (poisonFill cfg p s w.mem) w.released).evs⟩ := by
  simp [eina_freeq_ptr_add, h1, h2]

theorem count_max_set_eq (cfg : Config) (w : World) (n : Int) :
    eina_freeq_count_max_set cfg w n
      = ⟨⟨w.fq.qtype,
          (enforceAux cfg (if n < 0 then -1 else n) w.fq.memMax w.fq.items
            w.fq.memTotal w.mem w.released).items,
          (if n < 0 then -1 else n), w.fq.memMax,
          (enforceAux cfg (if n < 0 then -1 else n) w.fq.memMax w.fq.items
            w.fq.memTotal w.mem w.released).memTotal,
          true⟩,
        (enforceAux cfg (if n < 0 then -1 else n) w.fq.memMax w.fq.items
          w.fq.memTotal w.mem w.released).mem,
        (enforceAux cfg (if n < 0 then -1 else n) w.fq.memMax w.fq.items
          w.fq.memTotal w.mem w.released).evs⟩ := rfl

theorem mem_max_set_eq (cfg : Config) (w : World) (n : Nat) :
    eina_freeq_mem_max_set cfg w n
      = ⟨⟨w.fq.qtype,
          (enforceAux cfg w.fq.countMax (some n) w.fq.items
            w.fq.memTotal w.mem w.released).items,
          w.fq.countMax, some n,
          (enforceAux cfg w.fq.countMax (some n) w.fq.items
            w.fq.memTotal w.mem w.released).memTotal,
          true⟩,
        (enforceAux cfg w.fq.countMax (some n) w.fq.items
          w.fq.memTotal w.mem w.released).mem,
        (enforceAux cfg w.fq.countMax (some n) w.fq.items
          w.fq.memTotal w.mem w.released).evs⟩ := rfl

theorem clear_eq (cfg : Config) (w : World) :
    eina_freeq_clear cfg w
      = ⟨⟨w.fq.qtype,
          (drainAll cfg w.fq.items w.fq.memTotal w.mem w.released).items,
          w.fq.countMax, w.fq.memMax,
          (drainAll cfg w.fq.items w.fq.memTotal w.mem w.released).memTotal,
          w.fq.bypassDisabled⟩,
        (drainAll cfg w.fq.items w.fq.memTotal w.mem w.released).mem,
        (drainAll cfg w.fq.items w.fq.memTotal w.mem w.released).evs⟩ := rfl

theorem reduce_eq (cfg : Config) (w : World) (n : Int) :
    eina_freeq_reduce cfg w n
      = ⟨⟨w.fq.qtype,
          (reduceAux cfg n.toNat w.fq.items w.fq.memTotal w.mem w.released).items,
          w.fq.countMax, w.fq.memMax,
          (reduceAux cfg n.toNat w.fq.items w.fq.memTotal w.mem w.released).memTotal,
          w.fq.bypassDisabled⟩,
        (reduceAux cfg n.toNat w.fq.items w.fq.memTotal w.mem w.released).mem,
        (reduceAux cfg n.toNat w.fq.items w.fq.memTotal w.mem w.released).evs⟩ := rfl

theorem ptr_add_preserves (cfg : Config) (w : World) (p : Nat) (f : Option Nat) (s : Nat)
    (h : MemWF w.fq ∧ QueueInv w.fq) :
    MemWF (eina_freeq_ptr_add cfg w p f s).fq ∧ QueueInv (eina_freeq_ptr_add cfg w p f s).fq := by
  by_cases h1 : p = 0
  · subst h1
    rw [ptr_add_null]
    exact h
  · cases h2 : bypassActive cfg w.fq with
    | true =>
      rw [ptr_add_bypassed cfg w p f s h1 h2]
      exact h
    | false =>
      rw [ptr_add_queued cfg w p f s h1 h2]
      obtain ⟨hA, hB⟩ := enforceAux_restores cfg w.fq.countMax w.fq.memMax
        (w.fq.items ++ [⟨p, f, s⟩]) (w.fq.memTotal + s)
        (poisonFill cfg p s w.mem) w.released
        (by rw [h.1, sumSizes_append]; simp [sumSizes_cons, sumSizes_nil])
      exact ⟨hA, (not_over_inv _ _ _ _ hB).1, (not_over_inv _ _ _ _ hB).2⟩

theorem count_max_set_preserves (cfg : Config) (w : World) (n : Int)
    (h : MemWF w.fq) :
    MemWF (eina_freeq_count_max_set cfg w n).fq
      ∧ QueueInv (eina_freeq_count_max_set cfg w n).fq := by
  rw [count_max_set_eq]
  obtain ⟨hA, hB⟩ := enforceAux_restores cfg (if n < 0 then -1 else n) w.fq.memMax
    w.fq.items w.fq.memTotal w.mem w.released h
  exact ⟨hA, (not_over_inv _ _ _ _ hB).1, (not_over_inv _ _ _ _ hB).2⟩

theorem mem_max_set_preserves (cfg : Config) (w : World) (n : Nat)
    (h : MemWF w.fq) :
    MemWF (eina_freeq_mem_max_set cfg w n).fq
      ∧ QueueInv (eina_freeq_mem_max_set cfg w n).fq := by
  rw [mem_max_set_eq]
  obtain ⟨hA, hB⟩ := enforceAux_restores cfg w.fq.countMax (some n)
    w.fq.items w.fq.memTotal w.mem w.released h
  exact ⟨hA, (not_over_inv _ _ _ _ hB).1, (not_over_inv _ _ _ _ hB).2⟩

theorem clear_preserves (cfg : Config) (w : World) (h : MemWF w.fq) :
    MemWF (eina_freeq_clear cfg w).fq ∧ QueueInv (eina_freeq_clear cfg w).fq := by
  rw [clear_eq]
  obtain ⟨h1, h2, _⟩ := drainAll_spec cfg w.fq.items w.fq.memTotal w.mem w.released
  have h' : w.fq.memTotal = sumSizes w.fq.items := h
  have hz : (drainAll cfg w.fq.items w.fq.memTotal w.mem w.released).memTotal = 0 := by
    rw [h2, h', Nat.sub_self]
  constructor
  · show _ = sumSizes _
    rw [h1, hz, sumSizes_nil]
  · constructor
    · show countInv _ _
      rw [h1]
      simp only [countInv, List.length_nil, Nat.cast_zero]
      split
      · assumption
      · trivial
    · show memInv _ _
      rw [hz]
      cases hm : w.fq.memMax with
      | some m => simp [memInv]
      | none => simp [memInv]

theorem countInv_mono (cM : Int) (c c' : Nat) (h : countInv cM c) (hle : c' ≤ c) :
    countInv cM c' := by
  simp only [countInv] at h ⊢
  split
  · rename_i h0
    rw [if_pos h0] at h
    omega
  · trivial

theorem memInv_mono (mM : Option Nat) (mt mt' : Nat) (h : memInv mM mt) (hle : mt' ≤ mt) :
    memInv mM mt' := by
  cases mM with
  | some m => simp only [memInv] at h ⊢; omega
  | none => simp only [memInv]

theorem reduce_preserves (cfg : Config) (w : World) (n : Int)
    (h : MemWF w.fq ∧ QueueInv w.fq) :
    MemWF (eina_freeq_reduce cfg w n).fq ∧ QueueInv (eina_freeq_reduce cfg w n).fq := by
  rw [reduce_eq]
  obtain ⟨h1, h2, _⟩ := reduceAux_spec cfg w.fq.items n.toNat w.fq.memTotal w.mem w.released
  have h' : w.fq.memTotal = sumSizes w.fq.items := h.1
  have hsum : sumSizes (List.take n.toNat w.fq.items)
      + sumSizes (List.drop n.toNat w.fq.items) = sumSizes w.fq.items := by
    rw [← sumSizes_append, List.take_append_drop]
  constructor
  · show (reduceAux cfg n.toNat w.fq.items w.fq.memTotal w.mem w.released).memTotal
      = sumSizes (reduceAux cfg n.toNat w.fq.items w.fq.memTotal w.mem w.released).items
    rw [h1, h2, h']
    omega
  · constructor
    · show countInv w.fq.countMax
        (reduceAux cfg n.toNat w.fq.items w.fq.memTotal w.mem w.released).items.length
      rw [h1]
      exact countInv_mono _ _ _ h.2.1 (by rw [List.length_drop]; omega)
    · show memInv w.fq.memMax
        (reduceAux cfg n.toNat w.fq.items w.fq.memTotal w.mem w.released).memTotal
      rw [h2]
      exact memInv_mono _ _ _ h.2.2 (by omega)

theorem applyOp_preserves (cfg : Config) (w : World) (op : FreeQOp)
    (h : MemWF w.fq ∧ QueueInv w.fq) :
    MemWF (applyOp cfg w op).fq ∧ QueueInv (applyOp cfg w op).fq := by
  cases op with
  | add p f s => exact ptr_add_preserves cfg w p f s h
  | countMaxSet n => exact count_max_set_preserves cfg w n h.1
  | memMaxSet n => exact mem_max_set_preserves cfg w n h.1
  | clear => exact clear_preserves cfg w h.1
  | reduce n => exact reduce_preserves cfg w n h

theorem runOps_preserves (cfg : Config) :
    ∀ (ops : List FreeQOp) (w : World),
      MemWF w.fq ∧ QueueInv w.fq →
      MemWF (runOps cfg w ops).fq ∧ QueueInv (runOps cfg w ops).fq := by
  intro ops
  induction ops with
  | nil => intro w h; exact h
  | cons op rest ih =>
    intro w h
    have e : runOps cfg w (op :: rest) = runOps cfg (applyOp cfg w op) rest := rfl
    rw [e]
    exact ih _ (applyOp_preserves cfg w op h)

theorem worldNew_WF_Inv (type : Eina_FreeQ_Type) :
    MemWF (worldNew type).fq ∧ QueueInv (worldNew type).fq := by
  constructor
  · show (0 : Nat) = sumSizes []
    rfl
  · constructor
    · show countInv (-1) _
      simp [countInv]
    · show memInv none _
      simp [memInv]

theorem applyOp_latch (cfg : Config) (w : World) (op : FreeQOp)
    (h : w.fq.bypassDisabled = true) :
    (applyOp cfg w op).fq.bypassDisabled = true := by
  cases op with
  | add p f s =>
    show (eina_freeq_ptr_add cfg w p f s).fq.bypassDisabled = true
    by_cases h1 : p = 0
    · subst h1
      rw [ptr_add_null]
      exact h
    · cases h2 : bypassActive cfg w.fq with
      | true =>
        rw [ptr_add_bypassed cfg w p f s h1 h2]
        exact h
      | false =>
        rw [ptr_add_queued cfg w p f s h1 h2]
        exact h
  | countMaxSet n =>
    show (eina_freeq_count_max_set cfg w n).fq.bypassDisabled = true
    rw [count_max_set_eq]
  | memMaxSet n =>
    show (eina_freeq_mem_max_set cfg w n).fq.bypassDisabled = true
    rw [mem_max_set_eq]
  | clear =>
    show (eina_freeq_clear cfg w).fq.bypassDisabled = true
    rw [clear_eq]
    exact h
  | reduce n =>
    show (eina_freeq_reduce cfg w n).fq.bypassDisabled = true
    rw [reduce_eq]
    exact h

theorem runOps_latch (cfg : Config) :
    ∀ (ops : List FreeQOp) (w : World), w.fq.bypassDisabled = true →
      (runOps cfg w ops).fq.bypassDisabled = true := by
  intro ops
  induction ops with
  | nil => intro w h; exact h
  | cons op rest ih =>
    intro w h
    have e : runOps cfg w (op :: rest) = runOps cfg (applyOp cfg w op) rest := rfl
    rw [e]
    exact ih _ (applyOp_latch cfg w op h)

theorem poisonFill_zero (cfg : Config) (p : Nat) (mem : Mem) :
    poisonFill cfg p 0 mem = mem := by
  simp [poisonFill]

theorem poisonFreed_zero (cfg : Config) (it : Item) (mem : Mem) (h : it.size = 0) :
    poisonFreed cfg it mem = mem := by
  simp [poisonFreed, h]

theorem sumSizes_filter_pos (items : List Item) :
    sumSizes (List.filter (fun it => decide (0 < it.size)) items) = sumSizes items := by
  induction items with
  | nil => rfl
  | cons it rest ih =>
    by_cases h : 0 < it.size
    · rw [List.filter_cons_of_pos (by simpa using h), sumSizes_cons, sumSizes_cons, ih]
    · rw [List.filter_cons_of_neg (by simpa using h), sumSizes_cons, ih]
      omega

/-- C1: after every operation (enqueue, either ceiling setter, either
drain) on every queue, `count ≤ count_ceiling` whenever the count
ceiling is set and `memory_used ≤ memory_ceiling` whenever the memory
ceiling is set: every state reached from a fresh queue of either flavor
by an arbitrary operation sequence — including a setter lowering a
ceiling below the current count or memory use — satisfies both ceiling
invariants, restored by the synchronous eviction inside the same call. -/
theorem ceilings_hold_after_every_operation (cfg : Config) (type : Eina_FreeQ_Type)
    (ops : List FreeQOp) :
    QueueInv (runOps cfg (worldNew type) ops).fq :=
  (runOps_preserves cfg ops (worldNew type) (worldNew_WF_Inv type)).2

/-- C2: eviction under ceiling enforcement is strictly FIFO — the
enforcement loop always releases some prefix of the pending list (the
earliest-enqueued items, oldest first) and leaves the corresponding
suffix pending — and in the spec scenario (shared queue, count ceiling
2, enqueue A = 1000, B = 2000, C = 3000 of size 8 each, no release
capability) exactly A has been released, the count is 2, and B and C
are pending in that order. -/
theorem eviction_is_fifo :
    (∀ (cfg : Config) (cM : Int) (mM : Option Nat) (items : List Item) (mt : Nat)
        (mem : Mem) (evs : List ReleaseEvent),
      ∃ k, k ≤ items.length ∧
        (enforceAux cfg cM mM items mt mem evs).items = List.drop k items ∧
        List.map ReleaseEvent.ptr (enforceAux cfg cM mM items mt mem evs).evs
          = List.map ReleaseEvent.ptr evs ++ List.take k (List.map Item.ptr items)) ∧
    List.map ReleaseEvent.ptr wScenario.released = [1000] ∧
    List.map Item.ptr wScenario.fq.items = [2000, 3000] ∧
    wScenario.fq.items.length = 2 := by
  refine ⟨fun cfg cM mM items mt mem evs => enforceAux_fifo cfg cM mM items mt mem evs,
    ?_, ?_, ?_⟩
  · decide
  · decide
  · decide

/-- C3: on a queue whose bypass is active (bypass-disabled latch false
and global bypass flag true) and on which no ceiling was ever set,
enqueueing a non-null pointer invokes the item's release capability
immediately and synchronously, the item never becomes pending, and
has_pending remains false afterwards. -/
theorem bypass_enqueue_releases_immediately (cfg : Config) (w : World) (p : Nat)
    (f : Option Nat) (s : Nat)
    (hLatch : w.fq.bypassDisabled = false) (hFlag : cfg.bypass = true)
    (hPtr : p ≠ 0) (hNoCount : w.fq.countMax = -1) (hNoMem : w.fq.memMax = none)
    (hEmpty : w.fq.items = []) :
    evCalls (eina_freeq_ptr_add cfg w p f s).released
        = evCalls w.released ++ [(p, f, s)] ∧
    (eina_freeq_ptr_add cfg w p f s).fq.items = [] ∧
    eina_freeq_ptr_pending (eina_freeq_ptr_add cfg w p f s) = false := by
  have hb : bypassActive cfg w.fq = true := by
    simp [bypassActive, hLatch, hFlag]
  rw [ptr_add_bypassed cfg w p f s hPtr hb]
  refine ⟨?_, hEmpty, ?_⟩
  · show evCalls (releaseItem cfg ⟨p, f, s⟩ w.mem w.released).2 = _
    rw [releaseItem_snd]
    simp [evCalls]
  · simp [eina_freeq_ptr_pending, hEmpty]

/-- Witness for C3: fresh shared-flavor queue, global bypass flag on,
enqueue pointer 500 of size 8 with no free function. -/
theorem bypass_enqueue_releases_immediately_check :
    wFresh.fq.bypassDisabled = false ∧ cfgByp.bypass = true ∧ (500 : Nat) ≠ 0 ∧
    wFresh.fq.countMax = -1 ∧ wFresh.fq.memMax = none ∧ wFresh.fq.items = [] ∧
    (evCalls (eina_freeq_ptr_add cfgByp wFresh 500 none 8).released
        = evCalls wFresh.released ++ [(500, none, 8)] ∧
      (eina_freeq_ptr_add cfgByp wFresh 500 none 8).fq.items = [] ∧
      eina_freeq_ptr_pending (eina_freeq_ptr_add cfgByp wFresh 500 none 8) = false) :=
  ⟨rfl, rfl, by decide, rfl, rfl, rfl,
    bypass_enqueue_releases_immediately cfgByp wFresh 500 none 8 rfl rfl (by decide)
      rfl rfl rfl⟩

/-- C4: once a ceiling setter has been called on a queue, the
bypass-disabled latch is true and remains true after every further
operation sequence, and bypass is never active on that queue again even
when the global bypass flag is true. -/
theorem bypass_disable_latch_is_permanent (cfg : Config) (w : World) (ops : List FreeQOp)
    (n : Int) (m : Nat) :
    ((runOps cfg (eina_freeq_count_max_set cfg w n) ops).fq.bypassDisabled = true ∧
      bypassActive cfg (runOps cfg (eina_freeq_count_max_set cfg w n) ops).fq = false) ∧
    ((runOps cfg (eina_freeq_mem_max_set cfg w m) ops).fq.bypassDisabled = true ∧
      bypassActive cfg (runOps cfg (eina_freeq_mem_max_set cfg w m) ops).fq = false) := by
  have hc : (eina_freeq_count_max_set cfg w n).fq.bypassDisabled = true := by
    rw [count_max_set_eq]
  have hm : (eina_freeq_mem_max_set cfg w m).fq.bypassDisabled = true := by
    rw [mem_max_set_eq]
  have hlc := runOps_latch cfg ops _ hc
  have hlm := runOps_latch cfg ops _ hm
  exact ⟨⟨hlc, by simp [bypassActive, hlc]⟩, ⟨hlm, by simp [bypassActive, hlm]⟩⟩

/-- C5: drain_all releases every item that was pending, in FIFO order,
regardless of whether any ceiling is set or what its value is, and
leaves the queue with has_pending = false (count = 0). -/
theorem drain_all_flushes_in_fifo_order (cfg : Config) (w : World) :
    List.map ReleaseEvent.ptr (eina_freeq_clear cfg w).released
        = List.map ReleaseEvent.ptr w.released ++ List.map Item.ptr w.fq.items ∧
    (eina_freeq_clear cfg w).fq.items = [] ∧
    eina_freeq_ptr_pending (eina_freeq_clear cfg w) = false ∧
    (eina_freeq_clear cfg w).fq.items.length = 0 := by
  obtain ⟨h1, h2, h3⟩ := drainAll_spec cfg w.fq.items w.fq.memTotal w.mem w.released
  rw [clear_eq]
  refine ⟨h3, h1, ?_, by rw [h1]; rfl⟩
  show (!List.isEmpty _) = false
  rw [h1]
  rfl

/-- C6: for every queue with pending count c and every n ≥ 0,
drain_up_to(n) releases exactly min(n, c) items, namely the min(n, c)
oldest pending items in FIFO order, and leaves the remaining suffix
pending, independent of whether any ceiling is set. -/
theorem drain_up_to_releases_min (cfg : Config) (w : World) (n : Nat) :
    List.map ReleaseEvent.ptr (eina_freeq_reduce cfg w (n : Int)).released
        = List.map ReleaseEvent.ptr w.released
            ++ List.take n (List.map Item.ptr w.fq.items) ∧
    (eina_freeq_reduce cfg w (n : Int)).fq.items = List.drop n w.fq.items ∧
    (eina_freeq_reduce cfg w (n : Int)).released.length
        = w.released.length + min n w.fq.items.length := by
  have ht : ((n : Int)).toNat = n := by simp
  rw [reduce_eq, ht]
  obtain ⟨h1, h2, h3⟩ := reduceAux_spec cfg w.fq.items n w.fq.memTotal w.mem w.released
  refine ⟨h3, h1, ?_⟩
  have hlen := congrArg List.length h3
  simpa using hlen

/-- C7: for an item enqueued with declared size s, 0 < s and s strictly
below the poison threshold (the bound is exclusive): immediately after
the enqueue every one of its s bytes equals the pending-poison pattern
(stated on a queue with both ceilings unset, so the enqueue itself
evicts nothing and the stamped bytes are observable after the call),
and at every release the memory recorded at the moment the release
capability is invoked has every one of the item's bytes equal to the
pre-release poison pattern. -/
theorem poison_patterns_on_enqueue_and_release (cfg : Config) (w : World) (p : Nat)
    (f : Option Nat) (s : Nat)
    (hPtr : p ≠ 0) (hByp : bypassActive cfg w.fq = false)
    (hNoCount : w.fq.countMax = -1) (hNoMem : w.fq.memMax = none)
    (hPos : 0 < s) (hThr : s < cfg.fillMax) :
    (∀ a, p ≤ a → a < p + s → (eina_freeq_ptr_add cfg w p f s).mem a = cfg.fill) ∧
    (∀ (it : Item) (mem : Mem) (evs : List ReleaseEvent),
      0 < it.size → it.size < cfg.fillMax →
      ∃ ev, (releaseItem cfg it mem evs).2 = evs ++ [ev] ∧
        ev.ptr = it.ptr ∧ ev.free_func = it.free_func ∧ ev.size = it.size ∧
        ∀ a, it.ptr ≤ a → a < it.ptr + it.size → ev.memAtCall a = cfg.fillFreed) := by
  constructor
  · intro a ha1 ha2
    rw [ptr_add_queued cfg w p f s hPtr hByp]
    show (enforceAux cfg w.fq.countMax w.fq.memMax _ _ _ _).mem a = cfg.fill
    rw [hNoCount, hNoMem, enforceAux_unbounded]
    show poisonFill cfg p s w.mem a = cfg.fill
    simp only [poisonFill]
    rw [if_pos ⟨hPos, hThr⟩]
    show poison w.mem p s cfg.fill a = cfg.fill
    simp only [poison]
    rw [if_pos ⟨ha1, ha2⟩]
  · intro it mem evs hp ht
    refine ⟨⟨it.ptr, it.free_func, it.size, poisonFreed cfg it mem⟩,
      releaseItem_snd cfg it mem evs, rfl, rfl, rfl, ?_⟩
    intro a ha1 ha2
    show poisonFreed cfg it mem a = cfg.fillFreed
    simp only [poisonFreed]
    rw [if_pos ⟨hp, ht⟩]
    show poison mem it.ptr it.size cfg.fillFreed a = cfg.fillFreed
    simp only [poison]
    rw [if_pos ⟨ha1, ha2⟩]

/-- Witness for C7: fresh shared queue, bypass flag off, poison
threshold 16, enqueue pointer 500 of size 4. -/
theorem poison_patterns_check :
    (500 : Nat) ≠ 0 ∧ bypassActive cfgDbg wFresh.fq = false ∧
    wFresh.fq.countMax = -1 ∧ wFresh.fq.memMax = none ∧
    (0 : Nat) < 4 ∧ (4 : Nat) < cfgDbg.fillMax ∧
    ((∀ a, 500 ≤ a → a < 500 + 4 →
        (eina_freeq_ptr_add cfgDbg wFresh 500 none 4).mem a = cfgDbg.fill) ∧
      (∀ (it : Item) (mem : Mem) (evs : List ReleaseEvent),
        0 < it.size → it.size < cfgDbg.fillMax →
        ∃ ev, (releaseItem cfgDbg it mem evs).2 = evs ++ [ev] ∧
          ev.ptr = it.ptr ∧ ev.free_func = it.free_func ∧ ev.size = it.size ∧
          ∀ a, it.ptr ≤ a → a < it.ptr + it.size → ev.memAtCall a = cfgDbg.fillFreed)) :=
  ⟨by decide, by decide, rfl, rfl, by decide, by decide,
    poison_patterns_on_enqueue_and_release cfgDbg wFresh 500 none 4 (by decide) (by decide)
      rfl rfl (by decide) (by decide)⟩

/-- C8: items of declared size 0 never contribute to memory_used — in
every reachable state memory_used equals the sum of the sizes of the
pending items of nonzero size — and the engine never writes their
memory: enqueueing a size-0 item (on a queue with no ceilings set, so
the call evicts nothing else whose poisoning could touch memory) leaves
process memory and memory_used unchanged, and releasing a size-0 item
performs no poison write, recording the unmodified memory at the moment
the release capability runs. -/
theorem size_zero_items_untracked_unpoisoned (cfg : Config) (w : World) (p : Nat)
    (f : Option Nat)
    (hNoCount : w.fq.countMax = -1) (hNoMem : w.fq.memMax = none) :
    (∀ (type : Eina_FreeQ_Type) (ops : List FreeQOp),
      (runOps cfg (worldNew type) ops).fq.memTotal
        = sumSizes (List.filter (fun it => decide (0 < it.size))
            (runOps cfg (worldNew type) ops).fq.items)) ∧
    (eina_freeq_ptr_add cfg w p f 0).mem = w.mem ∧
    (eina_freeq_ptr_add cfg w p f 0).fq.memTotal = w.fq.memTotal ∧
    (∀ (it : Item) (mem : Mem) (evs : List ReleaseEvent), it.size = 0 →
      (releaseItem cfg it mem evs).1 = mem ∧
      (releaseItem cfg it mem evs).2 = evs ++ [⟨it.ptr, it.free_func, it.size, mem⟩]) := by
  refine ⟨?_, ?_, ?_, ?_⟩
  · intro type ops
    have hwf : MemWF (runOps cfg (worldNew type) ops).fq :=
      (runOps_preserves cfg ops (worldNew type) (worldNew_WF_Inv type)).1
    rw [sumSizes_filter_pos]
    exact hwf
  · by_cases h1 : p = 0
    · subst h1
      rw [ptr_add_null]
    · cases h2 : bypassActive cfg w.fq with
      | true =>
        rw [ptr_add_bypassed cfg w p f 0 h1 h2]
        show (releaseItem cfg ⟨p, f, 0⟩ w.mem w.released).1 = w.mem
        exact poisonFreed_zero cfg ⟨p, f, 0⟩ w.mem rfl
      | false =>
        rw [ptr_add_queued cfg w p f 0 h1 h2]
        show (enforceAux cfg w.fq.countMax w.fq.memMax _ _ _ _).mem = w.mem
        rw [hNoCount, hNoMem, enforceAux_unbounded]
        exact poisonFill_zero cfg p w.mem
  · by_cases h1 : p = 0
    · subst h1
      rw [ptr_add_null]
    · cases h2 : bypassActive cfg w.fq with
      | true =>
        rw [ptr_add_bypassed cfg w p f 0 h1 h2]
      | false =>
        rw [ptr_add_queued cfg w p f 0 h1 h2]
        show (enforceAux cfg w.fq.countMax w.fq.memMax _ _ _ _).memTotal = w.fq.memTotal
        rw [hNoCount, hNoMem, enforceAux_unbounded]
        rfl
  · intro it mem evs hz
    constructor
    · exact poisonFreed_zero cfg it mem hz
    · rw [releaseItem_snd, poisonFreed_zero cfg it mem hz]

/-- Witness for C8: fresh shared queue, enqueue pointer 600 with size 0. -/
theorem size_zero_items_check :
    wFresh.fq.countMax = -1 ∧ wFresh.fq.memMax = none ∧
    ((∀ (type : Eina_FreeQ_Type) (ops : List FreeQOp),
        (runOps cfgDbg (worldNew type) ops).fq.memTotal
          = sumSizes (List.filter (fun it => decide (0 < it.size))
              (runOps cfgDbg (worldNew type) ops).fq.items)) ∧
      (eina_freeq_ptr_add cfgDbg wFresh 600 none 0).mem = wFresh.mem ∧
      (eina_freeq_ptr_add cfgDbg wFresh 600 none 0).fq.memTotal = wFresh.fq.memTotal ∧
      (∀ (it : Item) (mem : Mem) (evs : List ReleaseEvent), it.size = 0 →
        (releaseItem cfgDbg it mem evs).1 = mem ∧
        (releaseItem cfgDbg it mem evs).2 = evs ++ [⟨it.ptr, it.free_func, it.size, mem⟩])) :=
  ⟨rfl, rfl, size_zero_items_untracked_unpoisoned cfgDbg wFresh 600 none rfl rfl⟩

/-- C9 counterexample: the claim that set_memory_ceiling follows the
count setter's signed contract fails at a concrete input.  The header
types the parameter as size_t, so a C caller's -1 reaches the function
as SIZE_MAX = 2^64 - 1 and is installed as a set, finite ceiling — not
the unset/unbounded state — while count_max_set(-1) does store the
unbounded -1 sentinel; and the getter of a queue on which no memory
limit was ever set returns the unset marker, not a -1 sentinel. -/
theorem mem_ceiling_sentinel_counterexample :
    (eina_freeq_count_max_set cfgByp wFresh (-1)).fq.countMax = -1 ∧
    eina_freeq_mem_max_get (eina_freeq_mem_max_set cfgByp wFresh (toSizeT (-1))).fq
        = some (2 ^ 64 - 1) ∧
    eina_freeq_mem_max_get (eina_freeq_mem_max_set cfgByp wFresh (toSizeT (-1))).fq
        ≠ none ∧
    eina_freeq_mem_max_get wFresh.fq = none := by
  refine ⟨rfl, by decide, by decide, rfl⟩

/-- C9 amended: set_count_ceiling treats n < 0 as unbounded, storing
and returning the -1 sentinel; set_memory_ceiling shares the latch
effect and the immediate synchronous enforcement, but not the signed
sentinel contract: its size_t argument is always installed as a set
ceiling, the getter returns exactly the stored byte limit, and the
unset/unbounded state exists only before the first call (where the
getter reports unset, not -1). -/
theorem mem_ceiling_amended_contract (cfg : Config) (w : World) (n : Int) (m : Nat)
    (type : Eina_FreeQ_Type) :
    eina_freeq_count_max_get (eina_freeq_count_max_set cfg w n).fq
        = (if n < 0 then -1 else n) ∧
    (eina_freeq_count_max_set cfg w n).fq.bypassDisabled = true ∧
    eina_freeq_mem_max_get (eina_freeq_mem_max_set cfg w m).fq = some m ∧
    (eina_freeq_mem_max_set cfg w m).fq.bypassDisabled = true ∧
    eina_freeq_mem_max_get (eina_freeq_new type) = none :=
  ⟨rfl, rfl, rfl, rfl, rfl⟩

/-- C10: eina_freeq_ptr_main_add(ptr, free_func, size) has exactly the
effect of eina_freeq_ptr_add(eina_freeq_main_get(), ptr, free_func,
size): the process main-queue state after the convenience entry point
equals enqueue applied to the queue the main accessor returns, both
when the main queue already exists and on lazy first access. -/
theorem ptr_main_add_is_add_on_main_queue (cfg : Config) (p : Option World) (ptr : Nat)
    (f : Option Nat) (s : Nat) :
    eina_freeq_ptr_main_add cfg p ptr f s
        = some (eina_freeq_ptr_add cfg (eina_freeq_main_get p) ptr f s) ∧
    (∀ w, eina_freeq_ptr_main_add cfg (some w) ptr f s
        = some (eina_freeq_ptr_add cfg w ptr f s)) ∧
    eina_freeq_ptr_main_add cfg none ptr f s
        = some (eina_freeq_ptr_add cfg (worldNew .EINA_FREEQ_DEFAULT) ptr f s) :=
  ⟨rfl, fun _ => rfl, rfl⟩
